import Mathlib

/-!
# Verification of the rusty_agent peer-to-peer agent core

Shallow embedding of `src/agent.rs` and `src/builder.rs` from the
`tmetsch/rusty_agent` repository, together with proofs about the wire
codec, the listener dispatch, the prober round and the directory
operations.

Strings are modelled by Lean `String`; Rust's `str::split` on a single
character (which splits at every occurrence of the separator, keeps
empty segments, and yields one empty segment for the empty input) is
modelled by `splitChar` / `rustSplit` below so that every definition is
a structural recursion the kernel can evaluate.
-/

namespace RustyAgent

/-- Rust `str::split(sep)` on a list of characters: splits at every
occurrence of `sep`, keeping empty segments; the empty input yields one
empty segment, matching Rust (`"".split(c)` yields `[""]`). -/
def splitChar (sep : Char) : List Char → List (List Char)
  | [] => [[]]
  | c :: cs =>
    if c = sep then
      [] :: splitChar sep cs
    else
      match splitChar sep cs with
      | [] => [[c]]
      | r :: rs => (c :: r) :: rs

/-- Rust `s.split(sep).collect::<Vec<_>>()` for a `String`. -/
def rustSplit (sep : Char) (s : String) : List String :=
  (splitChar sep s.data).map List.asString

/-- The message enum `Msg` of `src/agent.rs`: `Ping(String)`,
`Message(String)`, `Kill()`. -/
inductive Msg
  | Ping (content : String)
  | Message (content : String)
  | Kill
  deriving DecidableEq, Repr

/-- The encoder `Msg::to_msg` (src/agent.rs lines 23-29): the encoder of the wire
protocol. -/
def Msg.to_msg : Msg → String
  | .Ping content => "P@" ++ content
  | .Message content => "M@" ++ content
  | .Kill => "K@0"

/-- What the listener's dispatch does with one inbound wire string:
either it recognises a message (`ok`), or no branch of the
`if data[0] == ...` chain matches and the request is silently ignored
(`ignored`), or the access `data[1]` is out of bounds and the listener
thread panics (`panic`). -/
inductive DecodeResult
  | ok (m : Msg)
  | ignored
  | panic
  deriving DecidableEq, Repr

/-- The branch chain of `listen` (src/agent.rs lines 137-154) applied
to the collected split `data`: `data[0]` selects the branch, and the
`P` and `M` branches read the payload from `data[1]` (panicking if it
does not exist).  An unmatched tag falls through the `if`/`else if`
chain with no effect. -/
def decodeData : List String → DecodeResult
  | [] => .panic
  | tag :: rest =>
    if tag = "P" then
      match rest with
      | payload :: _ => .ok (.Ping payload)
      | [] => .panic
    else if tag = "M" then
      match rest with
      | payload :: _ => .ok (.Message payload)
      | [] => .panic
    else if tag = "K" then
      .ok .Kill
    else
      .ignored

/-- The decoding half of `listen` (src/agent.rs lines 134-154): the
inbound string is split on every `'@'` into `data`, and the branch
chain dispatches on `data[0]`. -/
def decode (s : String) : DecodeResult :=
  decodeData (rustSplit '@' s)

example : decode "P@a,b" = .ok (.Ping "a,b") := by decide
example : decode "M@hi" = .ok (.Message "hi") := by decide
example : decode "K@0" = .ok .Kill := by decide
example : decode "K" = .ok .Kill := by decide
example : decode "P" = .panic := by decide
example : decode "X@1" = .ignored := by decide
example : decode "M@a@b" = .ok (.Message "a") := by decide

/-- The mutable state a listener thread works on: the shared peer
directory `peers`, the shared message inbox `msgs`, and the loop flag
`done` (`done = true` models the transition out of the
`while !done` loop of `listen`). -/
structure ListenState where
  peers : List String
  msgs : List String
  done : Bool
  deriving DecidableEq, Repr

/-- The `P` branch of `listen` (src/agent.rs lines 137-144): for each
`peer` in `data[1].split(',')`, push it onto the directory unless it is
already contained.  Note the code checks only `peers.contains`; there
is no comparison against the agent's own endpoint here. -/
def mergeAddrs (peers : List String) (addrs : List String) : List String :=
  addrs.foldl (fun acc peer => if peer ∈ acc then acc else acc ++ [peer]) peers

/-- Merging one inbound Ping payload: split the payload on `','` and
push every segment not already present (src/agent.rs lines 139-143). -/
def mergePeers (peers : List String) (payload : String) : List String :=
  mergeAddrs peers (rustSplit ',' payload)

/-- One iteration of the `while !done` loop of `listen`
(src/agent.rs lines 129-155), given the received wire string `s`:
`P` merges the payload into the directory, `M` appends the payload to
the inbox, `K` clears the directory and sets `done`, anything else
leaves the state unchanged.  `none` models the listener thread
panicking (the out-of-bounds `data[1]`). -/
def listenStep (s : String) (st : ListenState) : Option ListenState :=
  match decode s with
  | .ok (.Ping payload) => some { st with peers := mergePeers st.peers payload }
  | .ok (.Message payload) => some { st with msgs := st.msgs ++ [payload] }
  | .ok .Kill => some { st with peers := [], done := true }
  | .ignored => some st
  | .panic => none

/-- The method `ZeroAgent::add_peer` (src/agent.rs lines 69-76): push `ep` unless
it is already contained or equals the agent's own endpoint. -/
def add_peer (selfEp : String) (peers : List String) (ep : String) : List String :=
  if ep ∉ peers ∧ ep ≠ selfEp then peers ++ [ep] else peers

/-- Outcome of `zmq` `connect` on a socket. -/
inductive ConnectOutcome
  | ok
  | fail
  deriving DecidableEq, Repr

/-- Outcome of the non-blocking `recv_msg(DONTWAIT)` after the wait
window: either an acknowledgement byte arrived or nothing did. -/
inductive RecvOutcome
  | acked
  | noReply
  deriving DecidableEq, Repr

/-- What a single call of `ping_peer` does: either the thread panics
(an `expect`/`unwrap` fired), or it completes returning a string —
`""` if the peer acknowledged, otherwise the peer's URI
(src/agent.rs line 159: "will return empty string if all is good,
otherwise the URI"). -/
inductive PingPeerResult
  | panicked
  | completed (deadPeer : String)
  deriving DecidableEq, Repr

/-- The string `ping_peer` computes once the connect succeeded
(src/agent.rs lines 167-177): `res` starts as `""` and becomes the
peer's URI exactly when `recv_msg(DONTWAIT)` returns an error. -/
def ping_peer_res (peer : String) (recv : RecvOutcome) : String :=
  match recv with
  | .noReply => peer
  | .acked => ""

/-- The probe `ping_peer` (src/agent.rs lines 161-180) over abstract transport
outcomes: `client.connect(peer).expect("Could not connect to peer")`
panics the thread on a connect failure; otherwise the message is sent,
the thread sleeps for the wait window, and the absence of a reply marks
the peer as dead.  (The `send` and `disconnect` unwraps are modelled as
succeeding; they are not at issue in any claim.) -/
def ping_peer (peer : String) (connect : ConnectOutcome) (recv : RecvOutcome) :
    PingPeerResult :=
  match connect with
  | .fail => .panicked
  | .ok => .completed (ping_peer_res peer recv)

/-- What `ZeroAgent::send_msg` does (src/agent.rs lines 79-84):
`connect(peer).expect("Could not connect to peer")` panics on a connect
failure; otherwise the message is sent and the call blocks for the
acknowledgement. -/
inductive SendResult
  | panicked
  | sent
  deriving DecidableEq, Repr

/-- The method `ZeroAgent::send_msg` over the abstract connect outcome. -/
def send_msg (connect : ConnectOutcome) : SendResult :=
  match connect with
  | .fail => .panicked
  | .ok => .sent

/-- One round of the `ping` loop (src/agent.rs lines 195-218), under
the assumption that every connect succeeds (otherwise the thread
panics, see `ping_peer`): every peer other than the agent's own
endpoint is pinged, the collected result strings form `dead_peers`, the
directory retains the entries not contained in `dead_peers`, and the
loop breaks exactly when the directory is then empty. -/
def pingRound (myEp : String) (peers : List String)
    (recvOf : String → RecvOutcome) : List String × Bool :=
  let deadPeers :=
    (peers.filter (fun p => p ≠ myEp)).map (fun p => ping_peer_res p (recvOf p))
  let newPeers := peers.filter (fun x => x ∉ deadPeers)
  (newPeers, newPeers.isEmpty)

/-- Result of one `broadcast` call (src/agent.rs lines 230-239):
either the loop over the directory completed, or `send_msg` panicked
partway.  In both cases `delivered` lists, in order, the peers to which
the message was successfully sent before the end or the panic. -/
inductive BroadcastResult
  | panicked (delivered : List String)
  | completed (delivered : List String)
  deriving DecidableEq, Repr

/-- The loop of `broadcast`: iterate over the directory, skip the
agent's own endpoint, and call `send_msg` on every other entry; a
connect failure panics (aborting the loop), otherwise the peer is
delivered to and iteration continues. -/
def broadcastGo (selfEp : String) (connectTo : String → ConnectOutcome) :
    List String → List String → BroadcastResult
  | [], delivered => .completed delivered
  | p :: rest, delivered =>
    if p = selfEp then
      broadcastGo selfEp connectTo rest delivered
    else
      match connectTo p with
      | .fail => .panicked delivered
      | .ok => broadcastGo selfEp connectTo rest (delivered ++ [p])

/-- The method `broadcast` of `impl Agent for ZeroAgent` (src/agent.rs lines 230-239):
for every directory entry other than the own endpoint, `send_msg` a
`Message` carrying the payload. -/
def broadcast (selfEp : String) (peers : List String)
    (connectTo : String → ConnectOutcome) : BroadcastResult :=
  broadcastGo selfEp connectTo peers []

/-- The peers a broadcast managed to deliver to, whether or not it
completed. -/
def BroadcastResult.delivered : BroadcastResult → List String
  | .panicked d => d
  | .completed d => d

/-- The method `retrieve` of `impl Agent for ZeroAgent` (src/agent.rs lines 223-229):
clone the inbox, clear it, return the clone.  The first component is
the value returned to the caller, the second the inbox contents
afterwards. -/
def retrieve (msgs : List String) : List String × List String :=
  (msgs, [])

/-- The builder `AgentBuilder::new` (src/builder.rs lines 20-33): the initial peer
directory holds exactly the agent's own endpoint; the inbox is empty;
wait defaults to 100 ms and timeout to 2 s. -/
structure AgentConfig where
  ep : String
  peers : List String
  msgs : List String
  wait : Nat
  timeout : Nat
  deriving DecidableEq, Repr

/-- The construction `AgentBuilder::new(ep)` followed by `build()`. -/
def AgentBuilder.new (ep : String) : AgentConfig :=
  { ep := ep, peers := [ep], msgs := [], wait := 100, timeout := 2 }

/-- The observable events of one round of the `ping` loop, in program
order, used to state where the directory lock is held. -/
inductive ProbeEvent
  | lockAcquire
  | buildPing
  | netCall (peer : String)
  | applyRemovals
  | lockRelease
  | sleep
  deriving DecidableEq, Repr

/-- The order of operations in one round of `ping`
(src/agent.rs lines 195-218) for directory contents `ps`: the guard is
taken at line 196 (`rcp.lock()`), the Ping message is built from the
joined directory (line 197-198), `executor::block_on` drives one
`ping_peer` network exchange per non-self peer (lines 200-210), the
removals are applied by `retain` (line 211), the guard is dropped at
line 217, and the thread sleeps (line 218). -/
def pingRoundTrace (myEp : String) (ps : List String) : List ProbeEvent :=
  [.lockAcquire, .buildPing]
    ++ (ps.filter (fun p => p ≠ myEp)).map .netCall
    ++ [.applyRemovals, .lockRelease, .sleep]

/-- The predicate `ioWhileHeld evs held` is `true` iff some `netCall` event of `evs`
happens while the directory lock is held (`held` being its state at the
start of `evs`). -/
def ioWhileHeld : List ProbeEvent → Bool → Bool
  | [], _ => false
  | e :: rest, held =>
    match e with
    | .lockAcquire => ioWhileHeld rest true
    | .lockRelease => ioWhileHeld rest false
    | .netCall _ => held || ioWhileHeld rest held
    | _ => ioWhileHeld rest held

/-- The protocol-error taxonomy named by the specification. -/
inductive ProtocolError
  | Malformed
  | UnknownTag
  deriving DecidableEq, Repr

/-- Modelled from the spec: the decoder the specification describes
(`decode(String) -> Result<WireMessage, ProtocolError>`, splitting once
on the first `@`; `Malformed` if no `@` delimiter exists, `UnknownTag`
if the prefix before the first `@` is not one of P/M/K).  This
definition follows the spec's words and exists only to be compared with
`decode`, the parse the listener actually performs. -/
def specDecode (s : String) : Except ProtocolError Msg :=
  match rustSplit '@' s with
  | [] => .error .Malformed
  | [_] => .error .Malformed
  | tag :: rest =>
    let payload := String.intercalate "@" rest
    if tag = "P" then .ok (.Ping payload)
    else if tag = "M" then .ok (.Message payload)
    else if tag = "K" then .ok .Kill
    else .error .UnknownTag

example : specDecode "K" = .error .Malformed := rfl
example : specDecode "X@1" = .error .UnknownTag := rfl
example : specDecode "M@a@b" = .ok (.Message "a@b") := rfl

/-! ## Helper lemmas about the split -/

theorem splitChar_ne_nil (sep : Char) (l : List Char) : splitChar sep l ≠ [] := by
  cases l with
  | nil => simp [splitChar]
  | cons c cs =>
    simp only [splitChar]
    split
    · simp
    · split <;> simp

theorem splitChar_of_not_mem (sep : Char) (l : List Char) (h : sep ∉ l) :
    splitChar sep l = [l] := by
  induction l with
  | nil => rfl
  | cons c cs ih =>
    have hc : ¬ c = sep := fun hEq => h (hEq ▸ List.mem_cons_self c cs)
    have hcs : sep ∉ cs := fun hm => h (List.mem_cons_of_mem c hm)
    simp [splitChar, hc, ih hcs]

theorem splitChar_eq_singleton_iff (sep : Char) (l m : List Char) :
    splitChar sep l = [m] ↔ m = l ∧ sep ∉ l := by
  induction l generalizing m with
  | nil =>
    constructor
    · intro h
      simp only [splitChar, List.cons.injEq, and_true] at h
      simp [← h]
    · rintro ⟨h, -⟩
      simp [splitChar, h]
  | cons c cs ih =>
    by_cases hc : c = sep
    · subst hc
      constructor
      · intro h
        simp only [splitChar, eq_self_iff_true, if_true, List.cons.injEq] at h
        exact absurd h.2 (splitChar_ne_nil c cs)
      · rintro ⟨-, hmem⟩
        exact absurd (List.mem_cons_self c cs) hmem
    · constructor
      · intro h
        simp only [splitChar, if_neg hc] at h
        rcases hs : splitChar sep cs with _ | ⟨r, rs⟩
        · exact absurd hs (splitChar_ne_nil sep cs)
        · rw [hs] at h
          simp only [List.cons.injEq] at h
          obtain ⟨hm, hrs⟩ := h
          subst hrs
          obtain ⟨hr, hmem⟩ := (ih r).mp hs
          subst hr
          subst hm
          refine ⟨rfl, ?_⟩
          intro hin
          rcases List.mem_cons.mp hin with h1 | h2
          · exact hc h1.symm
          · exact hmem h2
      · rintro ⟨hm, hmem⟩
        subst hm
        have hcs : sep ∉ cs := fun h2 => hmem (List.mem_cons_of_mem c h2)
        simp [splitChar, hc, splitChar_of_not_mem sep cs hcs]

theorem asString_data (s : String) : List.asString s.data = s := rfl

theorem rustSplit_ne_nil (sep : Char) (s : String) : rustSplit sep s ≠ [] := by
  unfold rustSplit
  intro h
  exact splitChar_ne_nil sep s.data (List.map_eq_nil_iff.mp h)

theorem rustSplit_eq_singleton_iff (sep : Char) (s t : String) :
    rustSplit sep s = [t] ↔ t = s ∧ sep ∉ s.data := by
  unfold rustSplit
  constructor
  · intro h
    rcases hs : splitChar sep s.data with _ | ⟨r, rs⟩
    · exact absurd hs (splitChar_ne_nil sep s.data)
    · rw [hs] at h
      simp only [List.map_cons, List.cons.injEq, List.map_eq_nil_iff] at h
      obtain ⟨hr, hrs⟩ := h
      subst hrs
      obtain ⟨hrl, hmem⟩ := (splitChar_eq_singleton_iff sep s.data r).mp hs
      subst hrl
      rw [asString_data] at hr
      exact ⟨hr.symm, hmem⟩
  · rintro ⟨ht, hmem⟩
    subst ht
    rw [splitChar_of_not_mem sep _ hmem]
    simp [asString_data]

theorem splitChar_tag (t sep : Char) (ht : ¬ t = sep) (l : List Char) (h : sep ∉ l) :
    splitChar sep (t :: sep :: l) = [[t], l] := by
  simp [splitChar, ht, splitChar_of_not_mem sep l h]

theorem rustSplit_encode (tag : Char) (sep : Char) (ht : ¬ tag = sep) (c : String)
    (h : sep ∉ c.data) :
    rustSplit sep (String.singleton tag ++ String.singleton sep ++ c) =
      [String.singleton tag, c] := by
  unfold rustSplit
  have hdata : (String.singleton tag ++ String.singleton sep ++ c).data
      = tag :: sep :: c.data := by
    rw [String.data_append, String.data_append]
    rfl
  rw [hdata, splitChar_tag tag sep ht c.data h]
  simp [asString_data]
  rfl

/-! ## Behaviour of the listener's parse -/

theorem decode_panic_iff (s : String) :
    decode s = DecodeResult.panic ↔ '@' ∉ s.data ∧ (s = "P" ∨ s = "M") := by
  rcases h : rustSplit '@' s with _ | ⟨tag, rest⟩
  · exact absurd h (rustSplit_ne_nil '@' s)
  · have hd : decode s = decodeData (tag :: rest) := by
      unfold decode
      rw [h]
    rw [hd]
    by_cases hP : tag = "P"
    · subst hP
      cases rest with
      | nil =>
        have hsing := (rustSplit_eq_singleton_iff '@' s "P").mp h
        exact iff_of_true (by decide) ⟨hsing.2, Or.inl hsing.1.symm⟩
      | cons p ps =>
        refine iff_of_false ?_ ?_
        · intro hx
          rw [show decodeData ("P" :: p :: ps) = DecodeResult.ok (Msg.Ping p) from rfl]
            at hx
          simp at hx
        · rintro ⟨hmem, -⟩
          have hsing : rustSplit '@' s = [s] :=
            (rustSplit_eq_singleton_iff '@' s s).mpr ⟨rfl, hmem⟩
          rw [h] at hsing
          simp at hsing
    · by_cases hM : tag = "M"
      · subst hM
        cases rest with
        | nil =>
          have hsing := (rustSplit_eq_singleton_iff '@' s "M").mp h
          exact iff_of_true (by decide) ⟨hsing.2, Or.inr hsing.1.symm⟩
        | cons p ps =>
          refine iff_of_false ?_ ?_
          · intro hx
            rw [show decodeData ("M" :: p :: ps) = DecodeResult.ok (Msg.Message p)
              from rfl] at hx
            simp at hx
          · rintro ⟨hmem, -⟩
            have hsing : rustSplit '@' s = [s] :=
              (rustSplit_eq_singleton_iff '@' s s).mpr ⟨rfl, hmem⟩
            rw [h] at hsing
            simp at hsing
      · refine iff_of_false ?_ ?_
        · intro hx
          by_cases hK : tag = "K"
          · rw [show decodeData (tag :: rest) = DecodeResult.ok Msg.Kill by
              simp [decodeData, hP, hM, hK]] at hx
            simp at hx
          · rw [show decodeData (tag :: rest) = DecodeResult.ignored by
              simp [decodeData, hP, hM, hK]] at hx
            simp at hx
        · rintro ⟨hmem, hs⟩
          have hsing : rustSplit '@' s = [s] :=
            (rustSplit_eq_singleton_iff '@' s s).mpr ⟨rfl, hmem⟩
          rw [h] at hsing
          simp only [List.cons.injEq] at hsing
          rcases hs with hs | hs <;> rw [hs] at hsing
          · exact hP hsing.1
          · exact hM hsing.1


theorem decode_ignored_iff (s : String) :
    decode s = DecodeResult.ignored ↔
      ((rustSplit '@' s).headD "" ≠ "P" ∧ (rustSplit '@' s).headD "" ≠ "M" ∧
        (rustSplit '@' s).headD "" ≠ "K") := by
  rcases h : rustSplit '@' s with _ | ⟨tag, rest⟩
  · exact absurd h (rustSplit_ne_nil '@' s)
  · have hd : decode s = decodeData (tag :: rest) := by
      unfold decode
      rw [h]
    rw [hd]
    simp only [List.headD_cons]
    by_cases hP : tag = "P"
    · refine iff_of_false ?_ (fun hx => hx.1 hP)
      intro hx
      cases rest with
      | nil =>
        rw [show decodeData (tag :: []) = DecodeResult.panic by
          simp [decodeData, hP]] at hx
        simp at hx
      | cons p ps =>
        rw [show decodeData (tag :: p :: ps) = DecodeResult.ok (Msg.Ping p) by
          simp [decodeData, hP]] at hx
        simp at hx
    · by_cases hM : tag = "M"
      · refine iff_of_false ?_ (fun hx => hx.2.1 hM)
        intro hx
        cases rest with
        | nil =>
          rw [show decodeData (tag :: []) = DecodeResult.panic by
            simp [decodeData, hP, hM]] at hx
          simp at hx
        | cons p ps =>
          rw [show decodeData (tag :: p :: ps) = DecodeResult.ok (Msg.Message p) by
            simp [decodeData, hP, hM]] at hx
          simp at hx
      · by_cases hK : tag = "K"
        · refine iff_of_false ?_ (fun hx => hx.2.2 hK)
          intro hx
          rw [show decodeData (tag :: rest) = DecodeResult.ok Msg.Kill by
            simp [decodeData, hP, hM, hK]] at hx
          simp at hx
        · refine iff_of_true ?_ ⟨hP, hM, hK⟩
          simp [decodeData, hP, hM, hK]

/-! ## Claim C1: round-trip of the wire codec -/

/-- Whether a message's payload avoids the `'@'` delimiter (the `Kill`
encoding carries the fixed payload `"0"`, which always does). -/
def atFree : Msg → Bool
  | .Ping content => decide ('@' ∉ content.data)
  | .Message content => decide ('@' ∉ content.data)
  | .Kill => true

/-- C1, counterexample: the claim states `decode (encode m) = m` for
*every* message, but the listener splits on every `'@'`, not only the
first, so the payload `"a@b"` is truncated to `"a"`: the round trip
fails for `Message "a@b"`. -/
theorem C1_roundtrip_counterexample :
    decode ((Msg.Message "a@b").to_msg) ≠ DecodeResult.ok (Msg.Message "a@b") := by
  decide

/-- C1, amended: decoding the encoded form yields the original message
for every `WireMessage` whose payload contains no `'@'` character
(`decode (encode m) = m` then holds; `Kill` always round-trips). -/
theorem C1_roundtrip (m : Msg) (h : atFree m = true) :
    decode (Msg.to_msg m) = DecodeResult.ok m := by
  cases m with
  | Kill => decide
  | Ping content =>
    have hc : '@' ∉ content.data := of_decide_eq_true h
    show decode ("P@" ++ content) = DecodeResult.ok (Msg.Ping content)
    have hsplit : rustSplit '@' ("P@" ++ content) = ["P", content] := by
      have := rustSplit_encode 'P' '@' (by decide) content hc
      simpa using this
    unfold decode
    rw [hsplit]
    rfl
  | Message content =>
    have hc : '@' ∉ content.data := of_decide_eq_true h
    show decode ("M@" ++ content) = DecodeResult.ok (Msg.Message content)
    have hsplit : rustSplit '@' ("M@" ++ content) = ["M", content] := by
      have := rustSplit_encode 'M' '@' (by decide) content hc
      simpa using this
    unfold decode
    rw [hsplit]
    rfl

/-- C1, witness: a concrete Ping carrying two peer addresses
round-trips through the codec. -/
theorem C1_roundtrip_witness :
    atFree (Msg.Ping "tcp://127.0.0.1:8787,tcp://127.0.0.1:8989") = true ∧
    decode (Msg.to_msg (Msg.Ping "tcp://127.0.0.1:8787,tcp://127.0.0.1:8989")) =
      DecodeResult.ok (Msg.Ping "tcp://127.0.0.1:8787,tcp://127.0.0.1:8989") :=
  ⟨by decide, C1_roundtrip (Msg.Ping "tcp://127.0.0.1:8787,tcp://127.0.0.1:8989")
    (by decide)⟩

/-! ## Claim C2: decode failure taxonomy -/

/-- C2, counterexample: the claim states that an inbound string with no
`'@'` delimiter fails to decode with `ProtocolError::Malformed`, but
the listener treats the delimiter-free string `"K"` as a `Kill` and
handles it successfully (the spec-modelled decoder rejects it). -/
theorem C2_decode_errors_counterexample :
    decode "K" = DecodeResult.ok Msg.Kill ∧
      specDecode "K" = Except.error ProtocolError.Malformed :=
  ⟨by decide, rfl⟩

/-- C2, amended: the listener's parse produces no error values at all.
A string whose prefix before the first `'@'` is not one of P/M/K is
silently ignored (not rejected), and a string with no `'@'` delimiter
causes a listener panic exactly when the whole string is `"P"` or
`"M"` (for `"K"` it acts as a Kill, and otherwise it is ignored). -/
theorem C2_decode_errors :
    (∀ s : String, decode s = DecodeResult.ignored ↔
      ((rustSplit '@' s).headD "" ≠ "P" ∧ (rustSplit '@' s).headD "" ≠ "M" ∧
        (rustSplit '@' s).headD "" ≠ "K")) ∧
    (∀ s : String, decode s = DecodeResult.panic ↔
      ('@' ∉ s.data ∧ (s = "P" ∨ s = "M"))) ∧
    decode "K" = DecodeResult.ok Msg.Kill :=
  ⟨decode_ignored_iff, decode_panic_iff, by decide⟩

/-! ## Claim C3: lock scope of the prober -/

/-- C3, counterexample: the claim states the directory lock is never
held across a blocking network call, but in the round of `ping` for
directory `["ep0", "ep1"]` of the agent `"ep0"` the probe of `"ep1"`
happens between `rcp.lock()` (line 196) and `drop(peers)` (line 217):
network I/O occurs while the lock is held. -/
theorem C3_lock_scope_counterexample :
    ioWhileHeld (pingRoundTrace "ep0" ["ep0", "ep1"]) false = true := by
  decide

/-- C3, amended: in every probe round with at least one peer other than
the agent itself, the prober performs network I/O while holding the
directory lock — the guard taken at the top of the round is dropped
only after all probes have resolved and the removals are applied. -/
theorem C3_lock_held_across_io (myEp : String) (ps : List String)
    (h : ps.filter (fun p => p ≠ myEp) ≠ []) :
    ioWhileHeld (pingRoundTrace myEp ps) false = true := by
  obtain ⟨p, rest, hl⟩ := List.exists_cons_of_ne_nil h
  unfold pingRoundTrace
  rw [hl]
  simp [ioWhileHeld]

/-- C3, witness: the amended statement at the two-peer directory of
agent `"ep0"`. -/
theorem C3_lock_held_across_io_witness :
    ((["ep0", "ep1"].filter (fun p => p ≠ "ep0")) ≠ []) ∧
    ioWhileHeld (pingRoundTrace "ep0" ["ep0", "ep1"]) false = true :=
  ⟨by decide, C3_lock_held_across_io "ep0" ["ep0", "ep1"] (by decide)⟩

/-! ## Claim C4: probe connect failure -/

/-- C4, counterexample: the claim states a probe connect failure is
treated as `NoAck` (the peer, here `"tcp://a"`, placed in the removal
set) and never as a fatal failure; in `ping_peer` the
`connect(peer).expect(...)` panics the prober thread instead. -/
theorem C4_connect_failure_counterexample :
    ping_peer "tcp://a" ConnectOutcome.fail RecvOutcome.acked =
      PingPeerResult.panicked ∧
    ping_peer "tcp://a" ConnectOutcome.fail RecvOutcome.acked ≠
      PingPeerResult.completed "tcp://a" := by
  decide

/-- C4, amended: a probe connect failure panics the prober thread,
exactly as a send connect failure panics `send_msg`; only the absence
of an acknowledgement within the wait window is the non-fatal `NoAck`
signal that places the peer in the removal set. -/
theorem C4_connect_failure_fatal (peer : String) (recv : RecvOutcome) :
    ping_peer peer ConnectOutcome.fail recv = PingPeerResult.panicked ∧
    send_msg ConnectOutcome.fail = SendResult.panicked ∧
    ping_peer peer ConnectOutcome.ok RecvOutcome.noReply =
      PingPeerResult.completed peer ∧
    ping_peer peer ConnectOutcome.ok RecvOutcome.acked =
      PingPeerResult.completed "" := by
  cases recv <;> exact ⟨rfl, rfl, rfl, rfl⟩

/-! ## Claim C5: best-effort broadcast -/

theorem broadcastGo_all_ok (selfEp : String) (f : String → ConnectOutcome)
    (hf : ∀ q, f q = ConnectOutcome.ok) :
    ∀ (l acc : List String),
      broadcastGo selfEp f l acc =
        BroadcastResult.completed (acc ++ l.filter (fun q => q ≠ selfEp)) := by
  intro l
  induction l with
  | nil => intro acc; simp [broadcastGo]
  | cons p rest ih =>
    intro acc
    by_cases hp : p = selfEp
    · rw [show broadcastGo selfEp f (p :: rest) acc = broadcastGo selfEp f rest acc
        from by simp [broadcastGo, hp]]
      rw [ih acc]
      simp [List.filter_cons, hp]
    · rw [show broadcastGo selfEp f (p :: rest) acc =
          broadcastGo selfEp f rest (acc ++ [p])
        from by simp [broadcastGo, hp, hf p]]
      rw [ih (acc ++ [p])]
      simp [List.filter_cons, hp]

theorem broadcastGo_first_fail (selfEp : String) (f : String → ConnectOutcome)
    (p : String) (hp : p ≠ selfEp) (hfp : f p = ConnectOutcome.fail)
    (l₂ : List String) :
    ∀ (l₁ acc : List String), (∀ q ∈ l₁, q ≠ selfEp → f q = ConnectOutcome.ok) →
      broadcastGo selfEp f (l₁ ++ p :: l₂) acc =
        BroadcastResult.panicked (acc ++ l₁.filter (fun q => q ≠ selfEp)) := by
  intro l₁
  induction l₁ with
  | nil =>
    intro acc _
    rw [show ([] : List String) ++ p :: l₂ = p :: l₂ from rfl]
    rw [show broadcastGo selfEp f (p :: l₂) acc = BroadcastResult.panicked acc
      from by simp [broadcastGo, hp, hfp]]
    simp
  | cons q rest ih =>
    intro acc hok
    by_cases hq : q = selfEp
    · rw [show (q :: rest) ++ p :: l₂ = q :: (rest ++ p :: l₂) from rfl]
      rw [show broadcastGo selfEp f (q :: (rest ++ p :: l₂)) acc =
          broadcastGo selfEp f (rest ++ p :: l₂) acc
        from by simp [broadcastGo, hq]]
      rw [ih acc (fun r hr hne => hok r (List.mem_cons_of_mem q hr) hne)]
      simp [List.filter_cons, hq]
    · have hfq : f q = ConnectOutcome.ok := hok q (List.mem_cons_self q rest) hq
      rw [show (q :: rest) ++ p :: l₂ = q :: (rest ++ p :: l₂) from rfl]
      rw [show broadcastGo selfEp f (q :: (rest ++ p :: l₂)) acc =
          broadcastGo selfEp f (rest ++ p :: l₂) (acc ++ [q])
        from by simp [broadcastGo, hq, hfq]]
      rw [ih (acc ++ [q]) (fun r hr hne => hok r (List.mem_cons_of_mem q hr) hne)]
      simp [List.filter_cons, hq]

theorem broadcastGo_self_not_delivered (selfEp : String)
    (f : String → ConnectOutcome) :
    ∀ (l acc : List String), selfEp ∉ acc →
      selfEp ∉ (broadcastGo selfEp f l acc).delivered := by
  intro l
  induction l with
  | nil =>
    intro acc hacc
    simpa [broadcastGo, BroadcastResult.delivered] using hacc
  | cons p rest ih =>
    intro acc hacc
    by_cases hp : p = selfEp
    · rw [show broadcastGo selfEp f (p :: rest) acc = broadcastGo selfEp f rest acc
        from by simp [broadcastGo, hp]]
      exact ih acc hacc
    · have hacc' : selfEp ∉ acc ++ [p] := by
        intro hmem
        rcases List.mem_append.mp hmem with hx | hx
        · exact hacc hx
        · exact hp (List.mem_singleton.mp hx).symm
      cases hfp : f p with
      | fail =>
        rw [show broadcastGo selfEp f (p :: rest) acc = BroadcastResult.panicked acc
          from by simp [broadcastGo, hp, hfp]]
        simpa [BroadcastResult.delivered] using hacc
      | ok =>
        rw [show broadcastGo selfEp f (p :: rest) acc =
            broadcastGo selfEp f rest (acc ++ [p])
          from by simp [broadcastGo, hp, hfp]]
        exact ih (acc ++ [p]) hacc'

/-- C5, counterexample: the claim states a send failure on one peer
does not abort the broadcast to the remaining peers and is never
surfaced; but for agent `"ep0"` with directory
`["ep0", "ep1", "ep2"]`, a connect failure on `"ep1"` panics the
broadcast before anything is delivered — `"ep2"` is never attempted. -/
theorem C5_broadcast_counterexample :
    broadcast "ep0" ["ep0", "ep1", "ep2"]
        (fun p => if p = "ep1" then ConnectOutcome.fail else ConnectOutcome.ok) =
      BroadcastResult.panicked [] ∧
    "ep2" ∉ (broadcast "ep0" ["ep0", "ep1", "ep2"]
        (fun p => if p = "ep1" then ConnectOutcome.fail
          else ConnectOutcome.ok)).delivered := by
  decide

/-- C5, amended: broadcast attempts `send_msg` on every directory
member except the agent's own address, in directory order; when every
connect succeeds, every non-self member is delivered to, but the first
connect failure on a non-self peer panics the broadcast, leaving the
remaining peers unattempted; the agent's own address is never delivered
to. -/
theorem C5_broadcast_fanout (selfEp : String) (peers l₁ l₂ : List String)
    (p : String) (f : String → ConnectOutcome) :
    (selfEp ∉ (broadcast selfEp peers f).delivered) ∧
    ((∀ q, f q = ConnectOutcome.ok) →
      broadcast selfEp peers f =
        BroadcastResult.completed (peers.filter (fun q => q ≠ selfEp))) ∧
    ((∀ q ∈ l₁, q ≠ selfEp → f q = ConnectOutcome.ok) → p ≠ selfEp →
      f p = ConnectOutcome.fail →
      broadcast selfEp (l₁ ++ p :: l₂) f =
        BroadcastResult.panicked (l₁.filter (fun q => q ≠ selfEp))) := by
  refine ⟨?_, ?_, ?_⟩
  · exact broadcastGo_self_not_delivered selfEp f peers [] (by simp)
  · intro hf
    have h := broadcastGo_all_ok selfEp f hf peers []
    simpa [broadcast] using h
  · intro hok hp hfp
    have h := broadcastGo_first_fail selfEp f p hp hfp l₂ l₁ [] hok
    simpa [broadcast] using h

/-- C5, witness: the amended statement at concrete directories — a
fully successful fan-out from `"ep0"` delivers to the two other
members, and a connect failure on `"ep2"` aborts after `"ep1"`. -/
theorem C5_broadcast_fanout_witness :
    broadcast "ep0" ["ep0", "ep1", "ep2"] (fun _ => ConnectOutcome.ok) =
      BroadcastResult.completed ["ep1", "ep2"] ∧
    broadcast "ep0" (["ep1"] ++ "ep2" :: ["ep3"])
        (fun q => if q = "ep2" then ConnectOutcome.fail else ConnectOutcome.ok) =
      BroadcastResult.panicked ["ep1"] := by
  constructor
  · have h := (C5_broadcast_fanout "ep0" ["ep0", "ep1", "ep2"] [] [] ""
      (fun _ => ConnectOutcome.ok)).2.1 (fun _ => rfl)
    exact h.trans (by decide)
  · have h := (C5_broadcast_fanout "ep0" [] ["ep1"] ["ep3"] "ep2"
      (fun q => if q = "ep2" then ConnectOutcome.fail else ConnectOutcome.ok)).2.2
      (fun q hq hne => by
        have : q = "ep1" := by simpa using hq
        subst this
        decide)
      (by decide) (by decide)
    exact h.trans (by decide)

/-! ## Claim C6: Kill clears the directory and stops both threads -/

/-- C6: on receiving the encoded `Kill` message the listener clears the
peer directory, keeps the inbox, and leaves its receive loop
(`done = true`); the prober's next round over the now-empty directory
issues no probes and breaks out of its loop. -/
theorem C6_kill_terminates (st : ListenState) (myEp : String)
    (recvOf : String → RecvOutcome) :
    listenStep (Msg.to_msg Msg.Kill) st =
      some { peers := [], msgs := st.msgs, done := true } ∧
    pingRound myEp [] recvOf = ([], true) :=
  ⟨rfl, rfl⟩

/-! ## Claim C7: retrieve drains the inbox -/

/-- C7: `retrieve` returns the inbox contents in insertion order and
empties the inbox; a second `retrieve` with no intervening push returns
the empty sequence, and concatenating the two deliveries yields each
payload exactly once. -/
theorem C7_retrieve_drains (msgs : List String) :
    (retrieve msgs).1 = msgs ∧
    (retrieve msgs).2 = [] ∧
    (retrieve (retrieve msgs).2).1 = [] ∧
    (retrieve msgs).1 ++ (retrieve (retrieve msgs).2).1 = msgs := by
  refine ⟨rfl, rfl, rfl, ?_⟩
  simp [retrieve]

/-! ## Claim C8: the listener's Ping merge and the agent's own address -/

theorem mem_mergeAddrs (x : String) :
    ∀ (addrs peers : List String),
      x ∈ mergeAddrs peers addrs ↔ x ∈ peers ∨ x ∈ addrs := by
  intro addrs
  induction addrs with
  | nil => intro peers; simp [mergeAddrs]
  | cons a rest ih =>
    intro peers
    by_cases ha : a ∈ peers
    · rw [show mergeAddrs peers (a :: rest) = mergeAddrs peers rest
        from by simp [mergeAddrs, ha]]
      rw [ih peers]
      constructor
      · rintro (hx | hx)
        · exact Or.inl hx
        · exact Or.inr (List.mem_cons_of_mem a hx)
      · rintro (hx | hx)
        · exact Or.inl hx
        · rcases List.mem_cons.mp hx with hx | hx
          · exact Or.inl (hx ▸ ha)
          · exact Or.inr hx
    · rw [show mergeAddrs peers (a :: rest) = mergeAddrs (peers ++ [a]) rest
        from by simp [mergeAddrs, ha]]
      rw [ih (peers ++ [a])]
      simp only [List.mem_append, List.mem_singleton, List.mem_cons]
      tauto

/-- C8, counterexample: the claim states the listener's Ping merge
never inserts the agent's own address when it is absent from the
directory; but the merge checks only `peers.contains` — for the agent
`"ep0"` with an (emptied) directory, the inbound payload `"ep0"`
re-inserts the agent's own address. -/
theorem C8_merge_self_counterexample :
    "ep0" ∉ ([] : List String) ∧ "ep0" ∈ mergePeers [] "ep0" := by
  decide

/-- C8, amended: the listener's Ping merge applies an add for each
received address, skipping exactly the addresses already present — it
performs no comparison against the agent's own address, so an address
(the agent's own included) ends up in the merged directory iff it was
already there or occurs in the received comma-split list. -/
theorem C8_merge_membership (peers : List String) (payload : String) (x : String) :
    x ∈ mergePeers peers payload ↔ x ∈ peers ∨ x ∈ rustSplit ',' payload := by
  unfold mergePeers
  exact mem_mergeAddrs x (rustSplit ',' payload) peers

/-! ## Claim C9: the directory never holds duplicates -/

theorem nodup_push (l : List String) (a : String) (ha : a ∉ l) (h : l.Nodup) :
    (l ++ [a]).Nodup := by
  rw [List.nodup_append]
  refine ⟨h, List.nodup_singleton a, ?_⟩
  intro x hx
  simp only [List.mem_singleton]
  intro hxa
  exact ha (hxa ▸ hx)

theorem mergeAddrs_nodup :
    ∀ (addrs peers : List String), peers.Nodup → (mergeAddrs peers addrs).Nodup := by
  intro addrs
  induction addrs with
  | nil => intro peers h; simpa [mergeAddrs] using h
  | cons a rest ih =>
    intro peers h
    by_cases ha : a ∈ peers
    · rw [show mergeAddrs peers (a :: rest) = mergeAddrs peers rest
        from by simp [mergeAddrs, ha]]
      exact ih peers h
    · rw [show mergeAddrs peers (a :: rest) = mergeAddrs (peers ++ [a]) rest
        from by simp [mergeAddrs, ha]]
      exact ih (peers ++ [a]) (nodup_push peers a ha h)

/-- C9: every operation that mutates the peer directory preserves
freedom from duplicates: the initial directory built by
`AgentBuilder::new` holds only the own endpoint; `add_peer`, the
listener's Ping merge, the prober's removal by `retain`, and the clear
performed on `Kill` all map duplicate-free directories to
duplicate-free directories. -/
theorem C9_directory_nodup (selfEp : String) :
    (AgentBuilder.new selfEp).peers.Nodup ∧
    (∀ peers ep, peers.Nodup → (add_peer selfEp peers ep).Nodup) ∧
    (∀ peers payload, peers.Nodup → (mergePeers peers payload).Nodup) ∧
    (∀ peers recvOf, peers.Nodup → (pingRound selfEp peers recvOf).1.Nodup) ∧
    (∀ st st', listenStep (Msg.to_msg Msg.Kill) st = some st' → st'.peers.Nodup) := by
  refine ⟨List.nodup_singleton selfEp, ?_, ?_, ?_, ?_⟩
  · intro peers ep h
    unfold add_peer
    split
    · rename_i hcond
      exact nodup_push peers ep hcond.1 h
    · exact h
  · intro peers payload h
    exact mergeAddrs_nodup (rustSplit ',' payload) peers h
  · intro peers recvOf h
    exact List.Nodup.filter _ h
  · intro st st' h
    have : st' = { peers := [], msgs := st.msgs, done := true } := by
      have hstep : listenStep (Msg.to_msg Msg.Kill) st =
          some { peers := [], msgs := st.msgs, done := true } := rfl
      rw [hstep] at h
      exact (Option.some.injEq _ _).mp h |>.symm
    rw [this]
    exact List.nodup_nil

/-- C9, witness: the initial one-element directory of agent `"ep0"`,
an `add_peer`, a Ping merge and a Kill step, all duplicate-free at
concrete inputs. -/
theorem C9_directory_nodup_witness :
    (AgentBuilder.new "ep0").peers.Nodup ∧
    (add_peer "ep0" ["ep0"] "ep1").Nodup ∧
    (mergePeers ["ep0", "ep1"] "ep1,ep2").Nodup :=
  ⟨(C9_directory_nodup "ep0").1,
    (C9_directory_nodup "ep0").2.1 ["ep0"] "ep1" (by decide),
    (C9_directory_nodup "ep0").2.2.1 ["ep0", "ep1"] "ep1,ep2" (by decide)⟩

/-! ## Claim C10: a Ping with empty payload inserts the empty string -/

/-- C10: splitting the empty Ping payload on `','` yields one
empty-string element, so the wire string `"P@"` makes the listener
insert `""` into the peer directory whenever `""` is not already a
member. -/
theorem C10_empty_ping_inserts_empty (st : ListenState) (h : "" ∉ st.peers) :
    listenStep "P@" st = some { st with peers := st.peers ++ [""] } := by
  have hd : decode "P@" = DecodeResult.ok (Msg.Ping "") := by decide
  unfold listenStep
  rw [hd]
  have hm : mergePeers st.peers "" = st.peers ++ [""] := by
    have hsplit : rustSplit ',' "" = [""] := by decide
    unfold mergePeers
    rw [hsplit]
    simp [mergeAddrs, h]
  show some (ListenState.mk (mergePeers st.peers "") st.msgs st.done) =
    some (ListenState.mk (st.peers ++ [""]) st.msgs st.done)
  rw [hm]

/-- C10, witness: the agent whose directory holds only `"tcp://a"`
receives `"P@"` and ends up with `""` as a directory member. -/
theorem C10_empty_ping_inserts_empty_witness :
    ("" ∉ (["tcp://a"] : List String)) ∧
    listenStep "P@" { peers := ["tcp://a"], msgs := [], done := false } =
      some { peers := ["tcp://a", ""], msgs := [], done := false } :=
  ⟨by decide, C10_empty_ping_inserts_empty
    { peers := ["tcp://a"], msgs := [], done := false } (by decide)⟩

end RustyAgent
